import Mathlib

/-!
Verification of an elementary cellular-automaton explorer.

The program keeps a toroidal row of boolean cells and an 8-bit rule.
Each step replaces cell `i` by bit `4*left + 2*center + right` of the rule,
where the neighbours wrap around the ends of the row.  On top of the stepper
the program builds cycle detection, block entropy, a compression estimate and
several statistical inference passes.  The definitions below are direct
translations of the corresponding Rust functions in
`src/code/automata/src/main.rs`.
-/

namespace Automata

/-- Number of live cells: `self.cells.iter().filter(|&&c| c).count()`. -/
def population (s : List Bool) : Nat :=
  (s.filter (fun c => c)).length

/-- Live-cell fraction: `self.population() as f64 / self.width() as f64`
(modelled over `ℚ`). -/
def density (s : List Bool) : ℚ :=
  (population s : ℚ) / (s.length : ℚ)

/-- Neighbourhood code of cell `i`:
`(left as u8) << 2 | (center as u8) << 1 | (right as u8)` with
`left = cells[(i + n - 1) % n]`, `center = cells[i]`,
`right = cells[(i + 1) % n]`. -/
def nhdCode (s : List Bool) (i : Nat) : Nat :=
  ((s.getD ((i + s.length - 1) % s.length) false).toNat <<< 2) |||
    ((s.getD i false).toNat <<< 1) |||
    (s.getD ((i + 1) % s.length) false).toNat

/-- One generation of `Automaton::step`: cell `i` of the next row is
`(self.rule >> index) & 1 == 1` for the neighbourhood code `index`. -/
def step (rule : Nat) (s : List Bool) : List Bool :=
  (List.range s.length).map (fun i => (rule >>> nhdCode s i) &&& 1 == 1)

/-- `Automaton::new(width, rule)`: all-dead row with the single cell
`cells[width / 2]` set.  The Rust indexing `cells[width / 2] = true`
panics when the vector is empty, which we model by `none` at width 0. -/
def automatonNew (width : Nat) : Option (List Bool) :=
  if width / 2 < width then
    some ((List.replicate width false).set (width / 2) true)
  else
    none

/-- The trajectory of repeated stepping from `s0` (`traj rule s0 k` is the
state after `k` calls of `step`). -/
def traj (rule : Nat) (s0 : List Bool) : Nat → List Bool
  | 0 => s0
  | k + 1 => step rule (traj rule s0 k)

section Basic

theorem step_length (rule : Nat) (s : List Bool) :
    (step rule s).length = s.length := by
  simp [step]

theorem step_nil (rule : Nat) : step rule [] = [] := by
  simp [step]

theorem shift_or_code (b1 b2 b3 : Bool) :
    (b1.toNat <<< 2) ||| (b2.toNat <<< 1) ||| b3.toNat =
      4 * b1.toNat + 2 * b2.toNat + b3.toNat := by
  cases b1 <;> cases b2 <;> cases b3 <;> decide

theorem nhdCode_eq (s : List Bool) (i : Nat) :
    nhdCode s i =
      4 * (s.getD ((i + s.length - 1) % s.length) false).toNat +
        2 * (s.getD i false).toNat +
        (s.getD ((i + 1) % s.length) false).toNat := by
  simp [nhdCode, shift_or_code]

theorem nhdCode_lt_eight (s : List Bool) (i : Nat) : nhdCode s i < 8 := by
  rw [nhdCode_eq]
  have h1 := Bool.toNat_le (s.getD ((i + s.length - 1) % s.length) false)
  have h2 := Bool.toNat_le (s.getD i false)
  have h3 := Bool.toNat_le (s.getD ((i + 1) % s.length) false)
  omega

theorem shiftRight_and_one_beq (rule m : Nat) :
    ((rule >>> m) &&& 1 == 1) = Nat.testBit rule m := by
  have h : ((rule >>> m) &&& 1 == 1) = true ↔ Nat.testBit rule m = true := by
    rw [Nat.shiftRight_eq_div_pow, Nat.and_one_is_mod, Nat.testBit_to_div_mod]
    simp
  exact Bool.eq_iff_iff.mpr h

theorem step_getD (rule : Nat) (s : List Bool) (i : Nat) (hi : i < s.length) :
    (step rule s).getD i false = Nat.testBit rule (nhdCode s i) := by
  have hl : i < (step rule s).length := by rw [step_length]; exact hi
  rw [List.getD_eq_getElem _ _ hl]
  simp only [step, List.getElem_map, List.getElem_range]
  exact shiftRight_and_one_beq rule (nhdCode s i)

theorem traj_length (rule : Nat) (s0 : List Bool) (k : Nat) :
    (traj rule s0 k).length = s0.length := by
  induction k with
  | zero => rfl
  | succ k ih => rw [traj, step_length, ih]

end Basic

/-- Claim C1: one step preserves the width, cell `i` of the result is bit
`4*state[(i-1) mod n] + 2*state[i] + state[(i+1) mod n]` of the rule byte
(the predecessor index written in its wraparound form `(i + n - 1) % n`),
the step function is total for any width, and stepping the empty (width-0)
state yields the empty state. -/
theorem step_spec (rule : Nat) (s : List Bool) :
    (step rule s).length = s.length ∧
      (∀ i, i < s.length →
        (step rule s).getD i false =
          Nat.testBit rule
            (4 * (s.getD ((i + s.length - 1) % s.length) false).toNat +
              2 * (s.getD i false).toNat +
              (s.getD ((i + 1) % s.length) false).toNat)) ∧
      step rule [] = [] := by
  refine ⟨step_length rule s, ?_, step_nil rule⟩
  intro i hi
  rw [step_getD rule s i hi, nhdCode_eq]

/-- Witness for C1 at rule 110 on the wraparound example of the spec:
width-5 state `[1,0,0,0,0]`, cell 0 has neighbourhood code 2 and bit 2 of
110 is 1. -/
theorem step_spec_witness :
    (step 110 [true, false, false, false, false]).getD 0 false = true := by
  have h := (step_spec 110 [true, false, false, false, false]).2.1 0 (by decide)
  simpa using h

/-- Result record of `find_cycle`. -/
structure CycleAnalysis where
  transient : Nat
  period : Nat
  died : Bool
  final_density : ℚ
  deriving DecidableEq, Repr

/-- The loop of `find_cycle`.  In the Rust code the hash set `seen` and the
vector `history` receive exactly the same states (both start with the initial
state and are pushed together), so `seen.contains(&ca.cells)` is the
membership test `ca' ∈ history` and
`history.iter().position(|s| s == &ca.cells)` is `history.findIdx`.
`stepIdx` is the loop variable `step`, `fuel` the number of remaining
iterations out of `max_steps`. -/
def findCycleLoop (rule : Nat) :
    Nat → Nat → List Bool → List (List Bool) → CycleAnalysis
  | stepIdx, 0, ca, _ => ⟨stepIdx, 0, false, density ca⟩
  | stepIdx, fuel + 1, ca, history =>
    let ca' := step rule ca
    if population ca' = 0 then
      ⟨stepIdx + 1, 1, true, 0⟩
    else if ca' ∈ history then
      ⟨history.findIdx (fun s => s == ca'),
        stepIdx + 1 - history.findIdx (fun s => s == ca'), false, density ca'⟩
    else
      findCycleLoop rule (stepIdx + 1) fuel ca' (history ++ [ca'])

/-- `find_cycle(rule, width, max_steps)`; `none` models the panic of
`Automaton::new` at width 0. -/
def find_cycle (rule width maxSteps : Nat) : Option CycleAnalysis :=
  (automatonNew width).map (fun s0 => findCycleLoop rule 0 maxSteps s0 [s0])

/-- The history list after `t` states have been recorded:
`[traj 0, …, traj (t-1)]`. -/
def histTo (rule : Nat) (s0 : List Bool) (t : Nat) : List (List Bool) :=
  (List.range t).map (traj rule s0)

/-- One cell of `flush_cell` in `compression_ratio`: set bit `7 - pos` of the
byte under construction when the cell is live, and push the byte once
8 bits are in it.  The state is `(current_byte, bit_pos, raw_bytes)`. -/
def flushCell (cell : Bool) : Nat × Nat × List Nat → Nat × Nat × List Nat
  | (byte, pos, bytes) =>
    let byte' := if cell then byte ||| (1 <<< (7 - pos)) else byte
    if pos + 1 = 8 then (0, 0, bytes ++ [byte']) else (byte', pos + 1, bytes)

/-- Fold `flush_cell` over a row of cells. -/
def packCells (cells : List Bool) (st : Nat × Nat × List Nat) :
    Nat × Nat × List Nat :=
  cells.foldl (fun st c => flushCell c st) st

/-- The final `if bit_pos > 0 { raw_bytes.push(current_byte) }`. -/
def finishBytes (st : Nat × Nat × List Nat) : List Nat :=
  if 0 < st.2.1 then st.2.2 ++ [st.1] else st.2.2

/-- The spacetime diagram as one bit stream: generations `0..=gens`
row-major.  (The Rust loop packs the first generation and then `gens`
further `ca.step()` results, i.e. exactly the rows `traj 0, …, traj gens`.) -/
def spacetimeBits (rule : Nat) (s0 : List Bool) (gens : Nat) : List Bool :=
  ((List.range (gens + 1)).map (traj rule s0)).flatten

/-- `compression_ratio(rule, width, generations)`.  The deflate encoder is
out of scope for the core (the spec treats it as an opaque deterministic
lossless byte codec), so it is passed in as the function `codec`; the
result is `(raw_bits, compressed_bits, ratio)`, and `none` models the
width-0 panic of `Automaton::new`. -/
def compression_ratio (codec : List Nat → List Nat) (rule width gens : Nat) :
    Option (Nat × Nat × ℚ) :=
  (automatonNew width).map (fun s0 =>
    let rawBytes := finishBytes (packCells (spacetimeBits rule s0 gens) (0, 0, []))
    let rawBits := width * (gens + 1)
    let compressedBits := 8 * (codec rawBytes).length
    (rawBits, compressedBits, (compressedBits : ℚ) / (rawBits : ℚ)))

section NewSpec

theorem population_replicate_false (n : Nat) :
    population (List.replicate n false) = 0 := by
  induction n with
  | zero => rfl
  | succ n ih => simp [population, List.replicate_succ]

theorem replicate_set_spec :
    ∀ n j, j < n →
      ((List.replicate n false).set j true).getD j false = true ∧
        population ((List.replicate n false).set j true) = 1 := by
  intro n
  induction n with
  | zero => intro j hj; omega
  | succ n ih =>
    intro j hj
    cases j with
    | zero =>
      constructor
      · simp [List.replicate_succ]
      · simp [List.replicate_succ, population]
    | succ j =>
      have hj' : j < n := by omega
      have h := ih j hj'
      constructor
      · simpa [List.replicate_succ] using h.1
      · simpa [List.replicate_succ, population] using h.2

end NewSpec

/-- Claim C10: the center-seeded constructor yields, for width at least 1, a
state of the requested width with exactly one live cell, sitting at index
`width / 2`; at width 0 it panics (modelled by `none`), and both
`find_cycle` and `compression_ratio`, which construct a center-seeded
automaton, are therefore not total at width 0, even though the step
function itself maps the empty state to the empty state. -/
theorem automatonNew_spec :
    automatonNew 0 = none ∧
      (∀ width, 1 ≤ width →
        ∃ s, automatonNew width = some s ∧ s.length = width ∧
          s.getD (width / 2) false = true ∧ population s = 1) ∧
      (∀ rule maxSteps, find_cycle rule 0 maxSteps = none) ∧
      (∀ codec rule gens, compression_ratio codec rule 0 gens = none) ∧
      (∀ rule, step rule [] = []) := by
  have h0 : automatonNew 0 = none := by simp [automatonNew]
  refine ⟨h0, ?_, ?_, ?_, fun rule => step_nil rule⟩
  · intro width hw
    have hj : width / 2 < width := Nat.div_lt_self (by omega) (by omega)
    refine ⟨(List.replicate width false).set (width / 2) true, ?_, ?_, ?_, ?_⟩
    · simp [automatonNew, hj]
    · simp
    · exact (replicate_set_spec width (width / 2) hj).1
    · exact (replicate_set_spec width (width / 2) hj).2
  · intro rule maxSteps
    simp [find_cycle, h0]
  · intro codec rule gens
    simp [compression_ratio, h0]

/-- Witness for C10 at width 3: the constructed state is `[_,#,_]`. -/
theorem automatonNew_spec_witness :
    ∃ s, automatonNew 3 = some s ∧ s.length = 3 ∧
      s.getD (3 / 2) false = true ∧ population s = 1 :=
  automatonNew_spec.2.1 3 (by decide)

/-- Step index `t` of the `find_cycle` loop records the new state and
continues: the state after `t + 1` steps is neither all-dead nor already in
the history `[traj 0, …, traj t]`. -/
def goesOn (rule : Nat) (s0 : List Bool) (t : Nat) : Prop :=
  population (traj rule s0 (t + 1)) ≠ 0 ∧
    traj rule s0 (t + 1) ∉ histTo rule s0 (t + 1)

instance goesOnDecidable (rule : Nat) (s0 : List Bool) (t : Nat) :
    Decidable (goesOn rule s0 t) := by
  unfold goesOn
  infer_instance

section CycleLemmas

theorem findCycleLoop_succ (rule stepIdx fuel : Nat) (ca : List Bool)
    (history : List (List Bool)) :
    findCycleLoop rule stepIdx (fuel + 1) ca history =
      if population (step rule ca) = 0 then
        ⟨stepIdx + 1, 1, true, 0⟩
      else if step rule ca ∈ history then
        ⟨history.findIdx (fun s => s == step rule ca),
          stepIdx + 1 - history.findIdx (fun s => s == step rule ca),
          false, density (step rule ca)⟩
      else
        findCycleLoop rule (stepIdx + 1) fuel (step rule ca)
          (history ++ [step rule ca]) := rfl

theorem traj_succ (rule : Nat) (s0 : List Bool) (t : Nat) :
    traj rule s0 (t + 1) = step rule (traj rule s0 t) := rfl

theorem histTo_succ (rule : Nat) (s0 : List Bool) (t : Nat) :
    histTo rule s0 (t + 1) = histTo rule s0 t ++ [traj rule s0 t] := by
  simp [histTo, List.range_succ]

theorem histTo_one (rule : Nat) (s0 : List Bool) : histTo rule s0 1 = [s0] := by
  simp [histTo]
  rfl

theorem histTo_length (rule : Nat) (s0 : List Bool) (t : Nat) :
    (histTo rule s0 t).length = t := by
  simp [histTo]

theorem traj_mem_histTo (rule : Nat) (s0 : List Bool) {m t : Nat} (h : m < t) :
    traj rule s0 m ∈ histTo rule s0 t :=
  List.mem_map_of_mem _ (List.mem_range.mpr h)

/-- If the loop is entered at step index `k` with the invariant state
(`ca = traj k`, `history = [traj 0, …, traj k]`), it keeps recording for
`d` more iterations, and the state produced at step index `k + d` is
all-dead, the loop returns `died` with transient `k + d + 1` and period 1 —
regardless of whether that dead state also repeats a history entry. -/
theorem findCycleLoop_death (rule : Nat) (s0 : List Bool) :
    ∀ d k fuel, d < fuel →
      (∀ m, m < d → goesOn rule s0 (k + m)) →
      population (traj rule s0 (k + d + 1)) = 0 →
      findCycleLoop rule k fuel (traj rule s0 k) (histTo rule s0 (k + 1)) =
        ⟨k + d + 1, 1, true, 0⟩ := by
  intro d
  induction d with
  | zero =>
    intro k fuel hf _ hdead
    match fuel, hf with
    | fuel + 1, _ =>
      simp only [Nat.add_zero] at hdead ⊢
      rw [findCycleLoop_succ, ← traj_succ rule s0 k, if_pos hdead]
  | succ d ih =>
    intro k fuel hf hprev hdead
    match fuel, hf with
    | fuel + 1, hf =>
      have hg : goesOn rule s0 k := by simpa using hprev 0 (by omega)
      rw [findCycleLoop_succ, ← traj_succ rule s0 k, if_neg hg.1, if_neg hg.2,
        ← histTo_succ]
      have harith : k + 1 + d + 1 = k + (d + 1) + 1 := by omega
      have h := ih (k + 1) fuel (by omega)
        (fun m hm => by
          have := hprev (m + 1) (by omega)
          have he : k + (m + 1) = k + 1 + m := by omega
          rwa [he] at this)
        (by rwa [harith])
      rwa [harith] at h

/-- If the loop is entered at step index `k` with the invariant state, keeps
recording for `d` more iterations, and the state produced at step index
`k + d` is live but repeats a history entry, the loop reports the first
history position of that state as the transient and `k + d + 1 - position`
as the period. -/
theorem findCycleLoop_repeat (rule : Nat) (s0 : List Bool) :
    ∀ d k fuel, d < fuel →
      (∀ m, m < d → goesOn rule s0 (k + m)) →
      population (traj rule s0 (k + d + 1)) ≠ 0 →
      traj rule s0 (k + d + 1) ∈ histTo rule s0 (k + d + 1) →
      findCycleLoop rule k fuel (traj rule s0 k) (histTo rule s0 (k + 1)) =
        ⟨(histTo rule s0 (k + d + 1)).findIdx
            (fun s => s == traj rule s0 (k + d + 1)),
          k + d + 1 -
            (histTo rule s0 (k + d + 1)).findIdx
              (fun s => s == traj rule s0 (k + d + 1)),
          false, density (traj rule s0 (k + d + 1))⟩ := by
  intro d
  induction d with
  | zero =>
    intro k fuel hf _ hpop hmem
    match fuel, hf with
    | fuel + 1, _ =>
      simp only [Nat.add_zero] at hpop hmem ⊢
      rw [findCycleLoop_succ, ← traj_succ rule s0 k, if_neg hpop, if_pos hmem]
  | succ d ih =>
    intro k fuel hf hprev hpop hmem
    match fuel, hf with
    | fuel + 1, hf =>
      have hg : goesOn rule s0 k := by simpa using hprev 0 (by omega)
      rw [findCycleLoop_succ, ← traj_succ rule s0 k, if_neg hg.1, if_neg hg.2,
        ← histTo_succ]
      have harith : k + 1 + d + 1 = k + (d + 1) + 1 := by omega
      have h := ih (k + 1) fuel (by omega)
        (fun m hm => by
          have := hprev (m + 1) (by omega)
          have he : k + (m + 1) = k + 1 + m := by omega
          rwa [he] at this)
        (by rwa [harith]) (by rwa [harith])
      rwa [harith] at h

/-- If the loop is entered at step index `k` with the invariant state and
keeps recording for all its remaining `fuel` iterations, it exhausts the
budget and reports transient `k + fuel` with period 0. -/
theorem findCycleLoop_exhaust (rule : Nat) (s0 : List Bool) :
    ∀ fuel k, (∀ m, m < fuel → goesOn rule s0 (k + m)) →
      findCycleLoop rule k fuel (traj rule s0 k) (histTo rule s0 (k + 1)) =
        ⟨k + fuel, 0, false, density (traj rule s0 (k + fuel))⟩ := by
  intro fuel
  induction fuel with
  | zero => intro k _; rfl
  | succ fuel ih =>
    intro k hall
    have hg : goesOn rule s0 k := by simpa using hall 0 (by omega)
    rw [findCycleLoop_succ, ← traj_succ rule s0 k, if_neg hg.1, if_neg hg.2,
      ← histTo_succ]
    have harith : k + 1 + fuel = k + (fuel + 1) := by omega
    have h := ih (k + 1)
      (fun m hm => by
        have := hall (m + 1) (by omega)
        have he : k + (m + 1) = k + 1 + m := by omega
        rwa [he] at this)
    rwa [harith] at h

theorem find_cycle_eq_loop (rule width maxSteps : Nat) (s0 : List Bool)
    (h0 : automatonNew width = some s0) :
    find_cycle rule width maxSteps =
      some (findCycleLoop rule 0 maxSteps (traj rule s0 0)
        (histTo rule s0 1)) := by
  rw [find_cycle, h0]
  simp only [Option.map_some']
  rw [histTo_one]
  rfl

/-- A result with period 0 can only come from the budget-exhausted branch:
its transient is `max_steps`, it is not a death report, and every step index
below `max_steps` recorded and continued. -/
theorem find_cycle_period_zero (rule width maxSteps : Nat) (s0 : List Bool)
    (h0 : automatonNew width = some s0) (res : CycleAnalysis)
    (hres : find_cycle rule width maxSteps = some res)
    (hper : res.period = 0) :
    res.transient = maxSteps ∧ res.died = false ∧
      ∀ m, m < maxSteps → goesOn rule s0 m := by
  rw [find_cycle_eq_loop rule width maxSteps s0 h0] at hres
  have hres' := Option.some.inj hres
  by_cases hall : ∀ m, m < maxSteps → goesOn rule s0 m
  · have h := findCycleLoop_exhaust rule s0 maxSteps 0 (fun m hm => by
      simpa using hall m (by omega))
    simp only [Nat.zero_add] at h
    rw [h] at hres'
    rw [← hres']
    exact ⟨rfl, rfl, hall⟩
  · exfalso
    push_neg at hall
    have hex : ∃ m, m < maxSteps ∧ ¬ goesOn rule s0 m := by
      obtain ⟨m, hm, hng⟩ := hall
      exact ⟨m, hm, hng⟩
    obtain ⟨d, hdlt, hdng, hmin⟩ :
        ∃ d, d < maxSteps ∧ ¬ goesOn rule s0 d ∧
          ∀ m, m < d → goesOn rule s0 m := by
      refine ⟨Nat.find hex, (Nat.find_spec hex).1, (Nat.find_spec hex).2, ?_⟩
      intro m hm
      have h1 := Nat.find_min hex hm
      push_neg at h1
      exact h1 (Nat.lt_trans hm (Nat.find_spec hex).1)
    by_cases hp : population (traj rule s0 (d + 1)) = 0
    · have h := findCycleLoop_death rule s0 d 0 maxSteps (by omega)
        (fun m hm => by simpa using hmin m hm) (by simpa using hp)
      simp only [Nat.zero_add] at h
      rw [h] at hres'
      rw [← hres'] at hper
      simp at hper
    · have hmem : traj rule s0 (d + 1) ∈ histTo rule s0 (d + 1) := by
        unfold goesOn at hdng
        push_neg at hdng
        exact hdng hp
      have h := findCycleLoop_repeat rule s0 d 0 maxSteps (by omega)
        (fun m hm => by simpa using hmin m hm) (by simpa using hp)
        (by simpa using hmem)
      simp only [Nat.zero_add] at h
      rw [h] at hres'
      rw [← hres'] at hper
      simp only at hper
      have hidx : (histTo rule s0 (d + 1)).findIdx
          (fun s => s == traj rule s0 (d + 1)) <
          (histTo rule s0 (d + 1)).length :=
        List.findIdx_lt_length_of_exists
          ⟨traj rule s0 (d + 1), hmem, by simp⟩
      rw [histTo_length] at hidx
      omega

end CycleLemmas

theorem histTo_getElem (rule : Nat) (s0 : List Bool) {t m : Nat}
    (hm : m < (histTo rule s0 t).length) :
    (histTo rule s0 t)[m] = traj rule s0 m := by
  simp [histTo]

/-- Claim C2: in `find_cycle`, if the state produced at step index `k` is
live and equals a prior state whose first occurrence in the history is at
index `j`, the result is period `k + 1 - j`, transient `j`, not died; if
`max_steps` steps elapse with every step recording and continuing (no death,
no repeat), the result is period 0 and transient `max_steps`; and period 0
occurs exactly and only in that budget-exhausted case. -/
theorem find_cycle_spec (rule width maxSteps : Nat) (s0 : List Bool)
    (h0 : automatonNew width = some s0) :
    (∀ k j, k < maxSteps →
      (∀ m, m < k → goesOn rule s0 m) →
      population (traj rule s0 (k + 1)) ≠ 0 →
      j ≤ k → traj rule s0 j = traj rule s0 (k + 1) →
      (∀ m, m < j → traj rule s0 m ≠ traj rule s0 (k + 1)) →
      find_cycle rule width maxSteps =
        some ⟨j, k + 1 - j, false, density (traj rule s0 (k + 1))⟩) ∧
    ((∀ m, m < maxSteps → goesOn rule s0 m) →
      find_cycle rule width maxSteps =
        some ⟨maxSteps, 0, false, density (traj rule s0 maxSteps)⟩) ∧
    (∀ res, find_cycle rule width maxSteps = some res → res.period = 0 →
      res.transient = maxSteps ∧ res.died = false ∧
        ∀ m, m < maxSteps → goesOn rule s0 m) := by
  refine ⟨?_, ?_, ?_⟩
  · intro k j hk hprev hpop hjk hj hjmin
    have hmem : traj rule s0 (k + 1) ∈ histTo rule s0 (k + 1) :=
      hj ▸ traj_mem_histTo rule s0 (by omega)
    have hidx : (histTo rule s0 (k + 1)).findIdx
        (fun s => s == traj rule s0 (k + 1)) = j := by
      apply (List.findIdx_eq (by rw [histTo_length]; omega)).mpr
      constructor
      · rw [histTo_getElem rule s0 (by rw [histTo_length]; omega)]
        simp [hj]
      · intro i hij
        rw [histTo_getElem rule s0 (by rw [histTo_length]; omega)]
        simp [hjmin i hij]
    rw [find_cycle_eq_loop rule width maxSteps s0 h0]
    have h := findCycleLoop_repeat rule s0 k 0 maxSteps (by omega)
      (fun m hm => by simpa using hprev m hm) (by simpa using hpop)
      (by simpa using hmem)
    simp only [Nat.zero_add] at h
    rw [h, hidx]
  · intro hall
    rw [find_cycle_eq_loop rule width maxSteps s0 h0]
    have h := findCycleLoop_exhaust rule s0 maxSteps 0
      (fun m hm => by simpa using hall m hm)
    simp only [Nat.zero_add] at h
    rw [h]
  · intro res hres hper
    exact find_cycle_period_zero rule width maxSteps s0 h0 res hres hper

/-- Witness for C2: rule 204 (the identity rule) at width 3 repeats its
initial state immediately, so the result is transient 0, period 1. -/
theorem find_cycle_spec_witness :
    find_cycle 204 3 10 =
      some ⟨0, 1, false, density (traj 204 [false, true, false] 1)⟩ := by
  have h := (find_cycle_spec 204 3 10 [false, true, false] (by decide)).1 0 0
    (by decide) (fun m hm => absurd hm (Nat.not_lt_zero m)) (by decide)
    (Nat.le_refl 0) (by decide) (fun m hm => absurd hm (Nat.not_lt_zero m))
  simpa using h

/-- Claim C3: if the state produced at step index `k` is all-dead, the
function returns immediately with died, transient `k + 1`, period 1 and
final density 0; and the dead check takes precedence over the
repeated-state check (the death branch is taken whatever the history
contains). -/
theorem find_cycle_death_spec (rule width maxSteps k : Nat) (s0 : List Bool)
    (h0 : automatonNew width = some s0) (hk : k < maxSteps)
    (hprev : ∀ m, m < k → goesOn rule s0 m)
    (hdead : population (traj rule s0 (k + 1)) = 0) :
    find_cycle rule width maxSteps = some ⟨k + 1, 1, true, 0⟩ ∧
      ∀ stepIdx fuel ca history, population (step rule ca) = 0 →
        findCycleLoop rule stepIdx (fuel + 1) ca history =
          ⟨stepIdx + 1, 1, true, 0⟩ := by
  constructor
  · rw [find_cycle_eq_loop rule width maxSteps s0 h0]
    have h := findCycleLoop_death rule s0 k 0 maxSteps (by omega)
      (fun m hm => by simpa using hprev m hm) (by simpa using hdead)
    simp only [Nat.zero_add] at h
    rw [h]
  · intro stepIdx fuel ca history hdead'
    rw [findCycleLoop_succ, if_pos hdead']

/-- Witness for C3: rule 0 kills the width-3 center seed in one step. -/
theorem find_cycle_death_spec_witness :
    find_cycle 0 3 5 = some ⟨1, 1, true, 0⟩ := by
  have h := find_cycle_death_spec 0 3 5 0 [false, true, false] (by decide)
    (by decide) (fun m hm => absurd hm (Nat.not_lt_zero m)) (by decide)
  simpa using h.1

/-- Claim C4: for every rule and width at least 1, a budget of at least
`2 ^ width + 1` steps always resolves: the returned period is positive
(pigeonhole over the at most `2 ^ width` states of a width-`width` row,
so the budget-exhausted period-0 branch is unreachable). -/
theorem find_cycle_resolves (rule width maxSteps : Nat)
    (hw : 1 ≤ width) (hms : 2 ^ width + 1 ≤ maxSteps) :
    ∃ res, find_cycle rule width maxSteps = some res ∧ 0 < res.period := by
  have hj : width / 2 < width := Nat.div_lt_self (by omega) (by omega)
  set s0 := (List.replicate width false).set (width / 2) true with hs0
  have h0 : automatonNew width = some s0 := by simp [automatonNew, hj]
  have hlen : s0.length = width := by simp [hs0]
  refine ⟨findCycleLoop rule 0 maxSteps (traj rule s0 0) (histTo rule s0 1),
    find_cycle_eq_loop rule width maxSteps s0 h0, ?_⟩
  by_contra hper
  push_neg at hper
  have hper0 : (findCycleLoop rule 0 maxSteps (traj rule s0 0)
      (histTo rule s0 1)).period = 0 := by omega
  have hgo := (find_cycle_period_zero rule width maxSteps s0 h0 _
    (find_cycle_eq_loop rule width maxSteps s0 h0) hper0).2.2
  have key : ∀ a b, a < b → b ≤ maxSteps →
      traj rule s0 a ≠ traj rule s0 b := by
    intro a b hab hb heq
    have hm := hgo (b - 1) (by omega)
    have hb1 : b - 1 + 1 = b := by omega
    have hm2 : traj rule s0 (b - 1 + 1) ∉ histTo rule s0 (b - 1 + 1) := hm.2
    rw [hb1] at hm2
    exact hm2 (heq ▸ traj_mem_histTo rule s0 hab)
  have hinj : Function.Injective
      (fun t : Fin (maxSteps + 1) =>
        fun i : Fin width => (traj rule s0 t.val).getD i.val false) := by
    intro a b hab
    have heq : traj rule s0 a.val = traj rule s0 b.val := by
      apply List.ext_getElem
      · rw [traj_length, traj_length]
      · intro i h1 h2
        have hiw : i < width := by rwa [traj_length, hlen] at h1
        have hfun := congrFun hab ⟨i, hiw⟩
        simp only at hfun
        rwa [List.getD_eq_getElem _ _ (by rw [traj_length, hlen]; exact hiw),
          List.getD_eq_getElem _ _ (by rw [traj_length, hlen]; exact hiw)]
          at hfun
    apply Fin.ext
    by_contra hne
    rcases Nat.lt_or_ge a.val b.val with h | h
    · exact key a.val b.val h (by omega) heq
    · exact key b.val a.val (by omega) (by omega) heq.symm
  have hcard : maxSteps + 1 ≤ 2 ^ width := by
    calc maxSteps + 1 = Fintype.card (Fin (maxSteps + 1)) :=
          (Fintype.card_fin _).symm
      _ ≤ Fintype.card (Fin width → Bool) :=
          Fintype.card_le_of_injective _ hinj
      _ = 2 ^ width := by simp [Fintype.card_fun]
  omega

/-- Witness for C4: rule 110, width 2, budget `2^2 + 1 = 5`. -/
theorem find_cycle_resolves_witness :
    ∃ res, find_cycle 110 2 5 = some res ∧ 0 < res.period :=
  find_cycle_resolves 110 2 5 (by decide) (by decide)

/-- The length-`2r+1` wraparound window of `before` centred at cell `i`:
entry `j` is `before[(i + n - r + j) % n]`.  (The Rust index expression
`i + n - r + j` underflows, and panics, when `r > i + n`; every result
below is stated for `r ≤ n`, where the subtraction is exact.) -/
def windowAt (before : List Bool) (r i : Nat) : List Bool :=
  (List.range (2 * r + 1)).map
    (fun j => before.getD ((i + before.length - r + j) % before.length) false)

/-- All `(window, output)` pairs a radius scan tabulates: one per transition
`(before, after)` and cell index `i`, output `after[i]`. -/
def windowSamples (ts : List (List Bool × List Bool)) (r : Nat) :
    List (List Bool × Bool) :=
  ts.flatMap (fun t =>
    (List.range t.1.length).map
      (fun i => (windowAt t.1 r i, t.2.getD i false)))

/-- `count_0` of the window table entry for `w`. -/
def zeroCount (samples : List (List Bool × Bool)) (w : List Bool) : Nat :=
  (samples.filter (fun s => s.1 == w && !s.2)).length

/-- `count_1` of the window table entry for `w`. -/
def oneCount (samples : List (List Bool × Bool)) (w : List Bool) : Nat :=
  (samples.filter (fun s => s.1 == w && s.2)).length

/-- The consistency check of the radius scan: the keys of the
window → `(count_0, count_1)` map are exactly the windows occurring in the
samples, and the radius is consistent iff no key has both counts
positive. -/
def consistentRadius (ts : List (List Bool × List Bool)) (r : Nat) : Bool :=
  (windowSamples ts r).all (fun s =>
    zeroCount (windowSamples ts r) s.1 == 0 ||
      oneCount (windowSamples ts r) s.1 == 0)

section RadiusLemmas

theorem windowAt_length (before : List Bool) (r i : Nat) :
    (windowAt before r i).length = 2 * r + 1 := by
  simp [windowAt]

theorem mem_windowSamples {ts : List (List Bool × List Bool)} {r : Nat}
    {s : List Bool × Bool} :
    s ∈ windowSamples ts r ↔
      ∃ t ∈ ts, ∃ i, i < t.1.length ∧
        s = (windowAt t.1 r i, t.2.getD i false) := by
  simp only [windowSamples, List.mem_flatMap, List.mem_map, List.mem_range]
  constructor
  · rintro ⟨t, ht, i, hi, rfl⟩
    exact ⟨t, ht, i, hi, rfl⟩
  · rintro ⟨t, ht, i, hi, rfl⟩
    exact ⟨t, ht, i, hi, rfl⟩

theorem zeroCount_pos_iff {samples : List (List Bool × Bool)} {w : List Bool} :
    0 < zeroCount samples w ↔ ∃ s ∈ samples, s.1 = w ∧ s.2 = false := by
  simp [zeroCount, List.length_pos_iff_exists_mem, List.mem_filter]

theorem oneCount_pos_iff {samples : List (List Bool × Bool)} {w : List Bool} :
    0 < oneCount samples w ↔ ∃ s ∈ samples, s.1 = w ∧ s.2 = true := by
  simp [oneCount, List.length_pos_iff_exists_mem, List.mem_filter]

theorem consistentRadius_iff {ts : List (List Bool × List Bool)} {r : Nat} :
    consistentRadius ts r = true ↔
      ∀ s ∈ windowSamples ts r,
        zeroCount (windowSamples ts r) s.1 = 0 ∨
          oneCount (windowSamples ts r) s.1 = 0 := by
  simp [consistentRadius]

/-- The radius-`r` window is the centred slice of the radius-`r'` window:
dropping `r' - r` entries at the front and keeping `2r+1` of the rest. -/
theorem windowAt_eq_slice (before : List Bool) (r r' i : Nat)
    (hrr : r ≤ r') (hn : r' ≤ before.length) :
    windowAt before r i =
      ((windowAt before r' i).drop (r' - r)).take (2 * r + 1) := by
  apply List.ext_getElem
  · simp [windowAt]
    omega
  · intro j h1 h2
    rw [windowAt_length] at h1
    have hj' : r' - r + j < 2 * r' + 1 := by omega
    rw [List.getElem_take, List.getElem_drop]
    simp only [windowAt, List.getElem_map, List.getElem_range]
    congr 2
    omega

end RadiusLemmas

/-- Claim C6: over a fixed collection of transitions, if radius `r` is
consistent (no wraparound window of length `2r+1` is mapped to both
outputs), then every larger radius `r'` is consistent as well, since
equal radius-`r'` windows have equal radius-`r` windows; hence the first
consistent radius found by the ascending scan is the minimal consistent
radius.  The window radii are restricted to the row width, where the
Rust window indexing `before[(i + n - r + j) % n]` is defined. -/
theorem radius_consistency_mono (ts : List (List Bool × List Bool))
    (r r' : Nat) (hrr : r ≤ r') (hn : ∀ t ∈ ts, r' ≤ t.1.length)
    (hc : consistentRadius ts r = true) :
    consistentRadius ts r' = true := by
  rw [consistentRadius_iff]
  intro s hs
  by_contra hboth
  push_neg at hboth
  obtain ⟨hz, ho⟩ := hboth
  obtain ⟨s0, hs0, hs0w, hs0v⟩ :=
    zeroCount_pos_iff.mp (Nat.pos_of_ne_zero hz)
  obtain ⟨s1, hs1, hs1w, hs1v⟩ :=
    oneCount_pos_iff.mp (Nat.pos_of_ne_zero ho)
  obtain ⟨t0, ht0, i0, hi0, hs0eq⟩ := mem_windowSamples.mp hs0
  obtain ⟨t1, ht1, i1, hi1, hs1eq⟩ := mem_windowSamples.mp hs1
  -- the two radius-r' windows agree, so the radius-r windows agree too
  have hww' : windowAt t0.1 r' i0 = windowAt t1.1 r' i1 := by
    have h0 : s0.1 = windowAt t0.1 r' i0 := by rw [hs0eq]
    have h1 : s1.1 = windowAt t1.1 r' i1 := by rw [hs1eq]
    rw [← h0, ← h1, hs0w, hs1w]
  have hww : windowAt t0.1 r i0 = windowAt t1.1 r i1 := by
    rw [windowAt_eq_slice t0.1 r r' i0 hrr (hn t0 ht0),
      windowAt_eq_slice t1.1 r r' i1 hrr (hn t1 ht1), hww']
  -- both outputs occur for the shared radius-r window: r is inconsistent
  have hm0 : (windowAt t0.1 r i0, t0.2.getD i0 false) ∈ windowSamples ts r :=
    mem_windowSamples.mpr ⟨t0, ht0, i0, hi0, rfl⟩
  have hm1 : (windowAt t1.1 r i1, t1.2.getD i1 false) ∈ windowSamples ts r :=
    mem_windowSamples.mpr ⟨t1, ht1, i1, hi1, rfl⟩
  have hv0 : t0.2.getD i0 false = false := by
    have : s0.2 = t0.2.getD i0 false := by rw [hs0eq]
    rw [← this, hs0v]
  have hv1 : t1.2.getD i1 false = true := by
    have : s1.2 = t1.2.getD i1 false := by rw [hs1eq]
    rw [← this, hs1v]
  have hzr : 0 < zeroCount (windowSamples ts r) (windowAt t0.1 r i0) :=
    zeroCount_pos_iff.mpr ⟨_, hm0, rfl, hv0⟩
  have hor : 0 < oneCount (windowSamples ts r) (windowAt t0.1 r i0) := by
    refine oneCount_pos_iff.mpr ⟨_, hm1, ?_, hv1⟩
    exact hww.symm
  have := (consistentRadius_iff.mp hc) _ hm0
  simp only at this
  omega

/-- Witness for C6: one rule-90 transition at width 4, radii 1 and 2. -/
theorem radius_consistency_mono_witness :
    consistentRadius
      [([true, false, false, false], step 90 [true, false, false, false])]
      2 = true := by
  apply radius_consistency_mono _ 1 2 (by decide)
  · intro t ht
    rw [List.mem_singleton] at ht
    rw [ht]
    decide
  · decide

/-- The `(left, center, right) → output` samples that the dependency
inference mode tabulates into its `counts` map: one per transition
`(before, after)` and cell index, with wraparound neighbours. -/
def tripleSamples (ts : List (List Bool × List Bool)) :
    List ((Bool × Bool × Bool) × Bool) :=
  ts.flatMap (fun t =>
    (List.range t.1.length).map (fun i =>
      ((t.1.getD ((i + t.1.length - 1) % t.1.length) false,
        t.1.getD i false,
        t.1.getD ((i + 1) % t.1.length) false),
        t.2.getD i false)))

/-- Zero-output count of the `counts` entry for the triple. -/
def tripleZero (ts : List (List Bool × List Bool))
    (lcr : Bool × Bool × Bool) : Nat :=
  ((tripleSamples ts).filter (fun s => s.1 == lcr && !s.2)).length

/-- One-output count of the `counts` entry for the triple. -/
def tripleOne (ts : List (List Bool × List Bool))
    (lcr : Bool × Bool × Bool) : Nat :=
  ((tripleSamples ts).filter (fun s => s.1 == lcr && s.2)).length

/-- `counts.get(&(l, c, r)).map(|(z, o)| o > z)`: `none` when the triple was
never observed (no entry in the map), otherwise the majority-vote outcome
`ones > zeros`. -/
def majorityAt (ts : List (List Bool × List Bool))
    (lcr : Bool × Bool × Bool) : Option Bool :=
  if 0 < tripleZero ts lcr + tripleOne ts lcr then
    some (tripleZero ts lcr < tripleOne ts lcr)
  else none

/-- `left_matters` of the statistical dependency inference: some fixed
`(c, r)` has differing majority verdicts for left 0 and left 1. -/
def leftMattersStat (ts : List (List Bool × List Bool)) : Bool :=
  [false, true].any (fun c => [false, true].any (fun r =>
    majorityAt ts (false, c, r) != majorityAt ts (true, c, r)))

/-- `center_matters` of the statistical dependency inference. -/
def centerMattersStat (ts : List (List Bool × List Bool)) : Bool :=
  [false, true].any (fun l => [false, true].any (fun r =>
    majorityAt ts (l, false, r) != majorityAt ts (l, true, r)))

/-- `right_matters` of the statistical dependency inference. -/
def rightMattersStat (ts : List (List Bool × List Bool)) : Bool :=
  [false, true].any (fun l => [false, true].any (fun c =>
    majorityAt ts (l, c, false) != majorityAt ts (l, c, true)))

section DependencyLemmas

theorem tripleZero_pos_iff {ts : List (List Bool × List Bool)}
    {lcr : Bool × Bool × Bool} :
    0 < tripleZero ts lcr ↔
      ∃ s ∈ tripleSamples ts, s.1 = lcr ∧ s.2 = false := by
  simp [tripleZero, List.length_pos_iff_exists_mem, List.mem_filter]

theorem tripleOne_pos_iff {ts : List (List Bool × List Bool)}
    {lcr : Bool × Bool × Bool} :
    0 < tripleOne ts lcr ↔
      ∃ s ∈ tripleSamples ts, s.1 = lcr ∧ s.2 = true := by
  simp [tripleOne, List.length_pos_iff_exists_mem, List.mem_filter]

theorem exists_sample_of_majorityAt_ne_none
    {ts : List (List Bool × List Bool)} {lcr : Bool × Bool × Bool}
    (h : majorityAt ts lcr ≠ none) :
    ∃ s ∈ tripleSamples ts, s.1 = lcr := by
  by_cases hpos : 0 < tripleZero ts lcr + tripleOne ts lcr
  · by_cases hz : 0 < tripleZero ts lcr
    · obtain ⟨s, hs, h1, _⟩ := tripleZero_pos_iff.mp hz
      exact ⟨s, hs, h1⟩
    · have ho : 0 < tripleOne ts lcr := by omega
      obtain ⟨s, hs, h1, _⟩ := tripleOne_pos_iff.mp ho
      exact ⟨s, hs, h1⟩
  · rw [majorityAt, if_neg hpos] at h
    exact absurd rfl h

theorem majority_ne_one_side {a b : Option Bool} (h : a ≠ b) :
    a ≠ none ∨ b ≠ none := by
  by_contra hcon
  push_neg at hcon
  rw [hcon.1, hcon.2] at h
  exact h rfl

end DependencyLemmas

/-- Claim C8: a position (left, center or right) is reported as mattering by
the statistical dependency inference iff, for some fixed values of the
other two positions found in the samples, the majority-vote outcome
(`ones > zeros`, `none` for an unobserved triple) differs between the
position-0 observations and the position-1 observations. -/
theorem dependency_stat_spec (ts : List (List Bool × List Bool)) :
    (leftMattersStat ts = true ↔ ∃ c r : Bool,
      (∃ s ∈ tripleSamples ts, s.1.2.1 = c ∧ s.1.2.2 = r) ∧
        majorityAt ts (false, c, r) ≠ majorityAt ts (true, c, r)) ∧
    (centerMattersStat ts = true ↔ ∃ l r : Bool,
      (∃ s ∈ tripleSamples ts, s.1.1 = l ∧ s.1.2.2 = r) ∧
        majorityAt ts (l, false, r) ≠ majorityAt ts (l, true, r)) ∧
    (rightMattersStat ts = true ↔ ∃ l c : Bool,
      (∃ s ∈ tripleSamples ts, s.1.1 = l ∧ s.1.2.1 = c) ∧
        majorityAt ts (l, c, false) ≠ majorityAt ts (l, c, true)) := by
  refine ⟨?_, ?_, ?_⟩
  · simp only [leftMattersStat, List.any_eq_true, bne_iff_ne]
    constructor
    · rintro ⟨c, -, r, -, hmaj⟩
      refine ⟨c, r, ?_, hmaj⟩
      rcases majority_ne_one_side hmaj with hne | hne
      · obtain ⟨s, hs, h1⟩ := exists_sample_of_majorityAt_ne_none hne
        exact ⟨s, hs, by rw [h1], by rw [h1]⟩
      · obtain ⟨s, hs, h1⟩ := exists_sample_of_majorityAt_ne_none hne
        exact ⟨s, hs, by rw [h1], by rw [h1]⟩
    · rintro ⟨c, r, -, hmaj⟩
      exact ⟨c, by cases c <;> simp, r, by cases r <;> simp, hmaj⟩
  · simp only [centerMattersStat, List.any_eq_true, bne_iff_ne]
    constructor
    · rintro ⟨l, -, r, -, hmaj⟩
      refine ⟨l, r, ?_, hmaj⟩
      rcases majority_ne_one_side hmaj with hne | hne
      · obtain ⟨s, hs, h1⟩ := exists_sample_of_majorityAt_ne_none hne
        exact ⟨s, hs, by rw [h1], by rw [h1]⟩
      · obtain ⟨s, hs, h1⟩ := exists_sample_of_majorityAt_ne_none hne
        exact ⟨s, hs, by rw [h1], by rw [h1]⟩
    · rintro ⟨l, r, -, hmaj⟩
      exact ⟨l, by cases l <;> simp, r, by cases r <;> simp, hmaj⟩
  · simp only [rightMattersStat, List.any_eq_true, bne_iff_ne]
    constructor
    · rintro ⟨l, -, c, -, hmaj⟩
      refine ⟨l, c, ?_, hmaj⟩
      rcases majority_ne_one_side hmaj with hne | hne
      · obtain ⟨s, hs, h1⟩ := exists_sample_of_majorityAt_ne_none hne
        exact ⟨s, hs, by rw [h1], by rw [h1]⟩
      · obtain ⟨s, hs, h1⟩ := exists_sample_of_majorityAt_ne_none hne
        exact ⟨s, hs, by rw [h1], by rw [h1]⟩
    · rintro ⟨l, c, -, hmaj⟩
      exact ⟨l, by cases l <;> simp, c, by cases c <;> simp, hmaj⟩

/-- Pseudo-random ~50%-density initial row of an inference trial:
`cells[i] = (seed.wrapping_mul(i + 1)) % 100 < 50`, the 64-bit wrapping
multiplication modelled by `% 2 ^ 64`. -/
def initCells (seed width : Nat) : List Bool :=
  (List.range width).map (fun i => decide ((seed * (i + 1)) % 2 ^ 64 % 100 < 50))

/-- The `(neighbourhood code, observed outcome)` pairs of one observed
generation: the code of every cell of the old row paired with the value of
that cell after the step.  This is the accumulation body specialised to
noise probability 0 (the premise of the recovery claim), where the
`if noise > 0.0` branch of the source is not taken and the observed outcome
is exactly `ca.cells[i]`. -/
def rowSamples (rule : Nat) (old : List Bool) : List (Nat × Bool) :=
  (List.range old.length).map
    (fun i => (nhdCode old i, (step rule old).getD i false))

/-- The samples of one trial: `generations` observed steps. -/
def runSamples (rule : Nat) : Nat → List Bool → List (Nat × Bool)
  | 0, _ => []
  | g + 1, s => rowSamples rule s ++ runSamples rule g (step rule s)

/-- All samples of the inference run: `num_trials = 10` trials seeded with
`trial * 12345 + 67890`. -/
def allSamples (rule width gens : Nat) : List (Nat × Bool) :=
  (List.range 10).flatMap
    (fun trial => runSamples rule gens (initCells (trial * 12345 + 67890) width))

/-- `observations[c]` after the accumulation loop. -/
def observationsCount (rule width gens c : Nat) : Nat :=
  ((allSamples rule width gens).filter (fun p => p.1 == c)).length

/-- `outcomes[c]` after the accumulation loop. -/
def outcomesCount (rule width gens c : Nat) : Nat :=
  ((allSamples rule width gens).filter (fun p => p.1 == c && p.2)).length

/-- The majority-vote inference: for each code `c < 8`,
`p = if count > 0 { ones / count } else { 0.5 }`, and bit `c` is set in the
inferred rule iff `p > 0.5` (so a never-observed code contributes 0). -/
def inferredRule (rule width gens : Nat) : Nat :=
  (List.range 8).foldl
    (fun acc c =>
      if (if 0 < observationsCount rule width gens c then
            (outcomesCount rule width gens c : ℚ) /
              (observationsCount rule width gens c : ℚ)
          else 1 / 2) > 1 / 2 then
        acc ||| (1 <<< c)
      else acc) 0

section InferLemmas

theorem testBit_one (j : Nat) : Nat.testBit 1 j = decide (j = 0) := by
  cases j with
  | zero => decide
  | succ j => simp [Nat.testBit_succ]

theorem testBit_one_shift (x c : Nat) :
    Nat.testBit (1 <<< x) c = decide (x = c) := by
  rw [Nat.testBit_shiftLeft, testBit_one]
  by_cases h : x ≤ c
  · by_cases he : x = c
    · subst he
      simp
    · have hne : c - x ≠ 0 := by omega
      simp [h, hne, he]
  · have h' : ¬ (c ≥ x) := h
    simp [h']
    omega

theorem runSamples_sound (rule : Nat) :
    ∀ gens (s : List Bool), ∀ p ∈ runSamples rule gens s,
      p.1 < 8 ∧ p.2 = Nat.testBit rule p.1 := by
  intro gens
  induction gens with
  | zero => intro s p hp; simp [runSamples] at hp
  | succ g ih =>
    intro s p hp
    rw [runSamples] at hp
    rcases List.mem_append.mp hp with h | h
    · simp only [rowSamples, List.mem_map, List.mem_range] at h
      obtain ⟨i, hi, rfl⟩ := h
      exact ⟨nhdCode_lt_eight s i, step_getD rule s i hi⟩
    · exact ih (step rule s) p h

theorem allSamples_sound (rule width gens : Nat) :
    ∀ p ∈ allSamples rule width gens,
      p.1 < 8 ∧ p.2 = Nat.testBit rule p.1 := by
  intro p hp
  simp only [allSamples, List.mem_flatMap, List.mem_range] at hp
  obtain ⟨trial, -, hmem⟩ := hp
  exact runSamples_sound rule gens _ p hmem

theorem filter_outcomes_eq (rule c : Nat) :
    ∀ l : List (Nat × Bool), (∀ p ∈ l, p.2 = Nat.testBit rule p.1) →
      (l.filter (fun p => p.1 == c && p.2)).length =
        if Nat.testBit rule c then (l.filter (fun p => p.1 == c)).length
        else 0 := by
  intro l
  induction l with
  | nil => intro _; cases h : Nat.testBit rule c <;> simp [h]
  | cons a l ih =>
    intro hs
    have ha := hs a (List.mem_cons_self a l)
    have ih' := ih (fun p hp => hs p (List.mem_cons_of_mem a hp))
    by_cases hc : a.1 = c
    · subst hc
      cases hout : a.2 with
      | false =>
        have htb : Nat.testBit rule a.1 = false := by rw [← ha, hout]
        simp [List.filter_cons, hout, htb, ih']
      | true =>
        have htb : Nat.testBit rule a.1 = true := by rw [← ha, hout]
        simp [List.filter_cons, hout, htb, ih']
    · simp [List.filter_cons, hc, ih']

theorem testBit_foldl_or (f : Nat → Prop) [DecidablePred f] :
    ∀ (l : List Nat) (acc c : Nat),
      Nat.testBit
        (l.foldl (fun a i => if f i then a ||| (1 <<< i) else a) acc) c =
        (Nat.testBit acc c || (decide (f c) && l.contains c)) := by
  intro l
  induction l with
  | nil => intro acc c; simp
  | cons x l ih =>
    intro acc c
    rw [List.foldl_cons]
    by_cases hx : f x
    · rw [if_pos hx, ih, Nat.testBit_or, testBit_one_shift]
      by_cases hxc : x = c
      · subst hxc
        simp [hx]
      · have hcx : ¬ c = x := fun h => hxc h.symm
        simp [hxc, hcx, List.contains_cons]
    · rw [if_neg hx, ih]
      by_cases hxc : x = c
      · subst hxc
        simp [hx]
      · have hcx : ¬ c = x := fun h => hxc h.symm
        simp [hxc, hcx, List.contains_cons]

theorem inferred_condition (rule width gens c : Nat)
    (hobs : 0 < observationsCount rule width gens c) :
    ((if 0 < observationsCount rule width gens c then
        (outcomesCount rule width gens c : ℚ) /
          (observationsCount rule width gens c : ℚ)
      else 1 / 2) > 1 / 2) ↔ Nat.testBit rule c = true := by
  rw [if_pos hobs]
  have hout : outcomesCount rule width gens c =
      if Nat.testBit rule c then observationsCount rule width gens c
      else 0 :=
    filter_outcomes_eq rule c (allSamples rule width gens)
      (fun p hp => (allSamples_sound rule width gens p hp).2)
  cases htb : Nat.testBit rule c with
  | false =>
    rw [htb, if_neg (by simp)] at hout
    rw [hout]
    simp
  | true =>
    rw [htb, if_pos rfl] at hout
    rw [hout, div_self (by positivity : ((observationsCount rule width gens c : ℚ)) ≠ 0)]
    norm_num

theorem testBit_inferredRule (rule width gens c : Nat) (hc : c < 8) :
    Nat.testBit (inferredRule rule width gens) c =
      decide ((if 0 < observationsCount rule width gens c then
          (outcomesCount rule width gens c : ℚ) /
            (observationsCount rule width gens c : ℚ)
        else 1 / 2) > 1 / 2) := by
  rw [inferredRule, testBit_foldl_or, Nat.zero_testBit, Bool.false_or]
  have hcont : (List.range 8).contains c = true := by
    simp [List.elem_iff]
    omega
  rw [hcont, Bool.and_true]

theorem testBit_inferredRule_high (rule width gens c : Nat) (hc : 8 ≤ c) :
    Nat.testBit (inferredRule rule width gens) c = false := by
  rw [inferredRule, testBit_foldl_or, Nat.zero_testBit, Bool.false_or]
  have hcont : (List.range 8).contains c = false := by
    simp [List.elem_iff]
    omega
  rw [hcont, Bool.and_false]

end InferLemmas

/-- Claim C5: bit `c` of the inferred rule is set iff the observed fraction
`P(1|c)` (defaulting to one half for a never-observed code, so such codes
infer to 0) exceeds one half; and consequently, with noise 0 and every one
of the 8 neighbourhood codes observed at least once during the trials, the
inferred rule byte equals the true rule byte exactly. -/
theorem infer_rule_spec (rule width gens : Nat) (hrule : rule < 256) :
    (∀ c, c < 8 →
      (Nat.testBit (inferredRule rule width gens) c = true ↔
        (if 0 < observationsCount rule width gens c then
          (outcomesCount rule width gens c : ℚ) /
            (observationsCount rule width gens c : ℚ)
         else 1 / 2) > 1 / 2)) ∧
    ((∀ c, c < 8 → 0 < observationsCount rule width gens c) →
      inferredRule rule width gens = rule) := by
  constructor
  · intro c hc
    rw [testBit_inferredRule rule width gens c hc]
    exact decide_eq_true_iff
  · intro hobs
    apply Nat.eq_of_testBit_eq
    intro i
    by_cases hi : i < 8
    · rw [testBit_inferredRule rule width gens i hi]
      have hcond := inferred_condition rule width gens i (hobs i hi)
      cases htb : Nat.testBit rule i with
      | true => exact decide_eq_true (hcond.mpr htb)
      | false =>
        apply decide_eq_false
        intro h
        rw [hcond.mp h] at htb
        exact Bool.noConfusion htb
    · rw [testBit_inferredRule_high rule width gens i (by omega)]
      have : rule < 2 ^ i := by
        calc rule < 2 ^ 8 := hrule
          _ ≤ 2 ^ i := Nat.pow_le_pow_right (by omega) (by omega)
      exact (Nat.testBit_lt_two_pow this).symm

/-- Witness for C5: rule 110 at width 5 for 2 generations observes every
neighbourhood code, and the inferred rule is exactly 110. -/
theorem infer_rule_spec_witness :
    inferredRule 110 5 2 = 110 :=
  (infer_rule_spec 110 5 2 (by decide)).2 (by decide)

/-- The byte an MSB-first packing makes of (at most 8) bits: stream bit `j`
lands at byte bit `7 - j`, missing trailing bits are zero.  Written from the
spec's words (`most-significant-bit-first packing`, `final partial byte
zero-padded`) as the reference for the `flush_cell` accumulator. -/
def byteOfBits (bits : List Bool) : Nat :=
  (List.range 8).foldl
    (fun acc j => acc + if bits.getD j false then 2 ^ (7 - j) else 0) 0

/-- Specification-side packing: the bit stream in chunks of 8, each chunk
one MSB-first byte, the final partial chunk zero-padded. -/
def packBitsMSB : List Bool → List Nat
  | [] => []
  | b :: bs => byteOfBits ((b :: bs).take 8) :: packBitsMSB ((b :: bs).drop 8)
termination_by l => l.length
decreasing_by simp; omega

section PackLemmas

theorem byteOfBits_nil : byteOfBits [] = 0 := rfl

theorem packBitsMSB_ne_nil (l : List Bool) (h : l ≠ []) :
    packBitsMSB l = byteOfBits (l.take 8) :: packBitsMSB (l.drop 8) := by
  cases l with
  | nil => exact absurd rfl h
  | cons b bs => rw [packBitsMSB]

theorem foldl_add_eq_sum (g : Nat → Nat) (n : Nat) :
    (List.range n).foldl (fun acc j => acc + g j) 0 =
      ∑ j ∈ Finset.range n, g j := by
  induction n with
  | zero => simp
  | succ n ih =>
    rw [List.range_succ, List.foldl_append, ih, Finset.sum_range_succ]
    simp

theorem byteOfBits_eq_sum (bits : List Bool) :
    byteOfBits bits =
      ∑ j ∈ Finset.range 8, if bits.getD j false then 2 ^ (7 - j) else 0 :=
  foldl_add_eq_sum _ 8

theorem byteOfBits_snoc (p : List Bool) (c : Bool) (h : p.length < 8) :
    byteOfBits (p ++ [c]) =
      byteOfBits p + if c then 2 ^ (7 - p.length) else 0 := by
  rw [byteOfBits_eq_sum, byteOfBits_eq_sum]
  have hsplit : ∀ j ∈ Finset.range 8,
      (if (p ++ [c]).getD j false then 2 ^ (7 - j) else 0) =
        (if p.getD j false then 2 ^ (7 - j) else 0) +
          (if j = p.length then (if c then 2 ^ (7 - j) else 0) else 0) := by
    intro j _
    rcases Nat.lt_trichotomy j p.length with hlt | heq | hgt
    · rw [List.getD_append p [c] false j hlt]
      simp [Nat.ne_of_lt hlt]
    · rw [heq, List.getD_append_right p [c] false p.length (Nat.le_refl _),
        List.getD_eq_default p false (Nat.le_refl _)]
      simp
    · have h1 : (p ++ [c]).getD j false = false :=
        List.getD_eq_default _ _ (by simp; omega)
      have h2 : p.getD j false = false := List.getD_eq_default _ _ (by omega)
      rw [h1, h2]
      simp [Nat.ne_of_gt hgt]
  rw [Finset.sum_congr rfl hsplit, Finset.sum_add_distrib]
  congr 1
  rw [Finset.sum_ite_eq' (Finset.range 8) p.length
    (fun j => if c then 2 ^ (7 - j) else 0)]
  simp [Finset.mem_range.mpr h]

theorem two_pow_dvd_byteOfBits (p : List Bool) (h : p.length < 8) :
    2 ^ (8 - p.length) ∣ byteOfBits p := by
  rw [byteOfBits_eq_sum]
  apply Finset.dvd_sum
  intro j _
  by_cases hb : p.getD j false = true
  · have hjp : j < p.length := by
      by_contra hc
      push_neg at hc
      rw [List.getD_eq_default _ _ hc] at hb
      exact Bool.noConfusion hb
    rw [if_pos hb]
    exact pow_dvd_pow 2 (by omega)
  · rw [if_neg hb]
    exact dvd_zero _

theorem byteOfBits_lor (p : List Bool) (h : p.length < 8) :
    byteOfBits p ||| 2 ^ (7 - p.length) =
      byteOfBits p + 2 ^ (7 - p.length) := by
  obtain ⟨m, hm⟩ := two_pow_dvd_byteOfBits p h
  have h8 : 8 - p.length = (7 - p.length) + 1 := by omega
  rw [h8] at hm
  rw [hm, ← Nat.mul_add_lt_is_or (by
    exact Nat.pow_lt_pow_right (by omega) (Nat.lt_succ_self _)) m]

theorem flushCell_spec (c : Bool) (p : List Bool) (acc : List Nat)
    (h : p.length < 8) :
    flushCell c (byteOfBits p, p.length, acc) =
      if p.length + 1 = 8 then (0, 0, acc ++ [byteOfBits (p ++ [c])])
      else (byteOfBits (p ++ [c]), p.length + 1, acc) := by
  have hb : (if c then byteOfBits p ||| 1 <<< (7 - p.length)
      else byteOfBits p) = byteOfBits (p ++ [c]) := by
    cases c with
    | false => rw [byteOfBits_snoc p false h]; simp
    | true =>
      rw [byteOfBits_snoc p true h, if_pos rfl, if_pos rfl,
        Nat.shiftLeft_eq, one_mul]
      exact byteOfBits_lor p h
  simp only [flushCell]
  rw [hb]

theorem packCells_spec :
    ∀ (bits p : List Bool) (acc : List Nat), p.length < 8 →
      finishBytes (packCells bits (byteOfBits p, p.length, acc)) =
        acc ++ packBitsMSB (p ++ bits) := by
  intro bits
  induction bits with
  | nil =>
    intro p acc h
    rw [packCells, List.foldl_nil, List.append_nil]
    cases p with
    | nil => simp [finishBytes, packBitsMSB, byteOfBits_nil]
    | cons q qs =>
      rw [finishBytes]
      rw [packBitsMSB_ne_nil _ (by simp),
        List.take_of_length_le (by omega),
        List.drop_eq_nil_of_le (by omega), packBitsMSB]
      simp
  | cons c rest ih =>
    intro p acc h
    rw [packCells, List.foldl_cons]
    have hfold : List.foldl (fun st c => flushCell c st)
        (flushCell c (byteOfBits p, p.length, acc)) rest =
        packCells rest (flushCell c (byteOfBits p, p.length, acc)) := rfl
    rw [hfold, flushCell_spec c p acc h]
    by_cases h8 : p.length + 1 = 8
    · rw [if_pos h8]
      have hstep := ih [] (acc ++ [byteOfBits (p ++ [c])]) (by simp)
      simp only [byteOfBits_nil, List.length_nil, List.nil_append] at hstep
      rw [hstep]
      have hpc : (p ++ [c]).length = 8 := by simp; omega
      have hne : (p ++ [c]) ++ rest ≠ [] := by
        intro hcon
        have := congrArg List.length hcon
        simp at this
      rw [show p ++ c :: rest = (p ++ [c]) ++ rest by simp,
        packBitsMSB_ne_nil ((p ++ [c]) ++ rest) hne, ← hpc,
        List.take_left, List.drop_left]
      simp
    · rw [if_neg h8]
      have hlen : (p ++ [c]).length < 8 := by simp; omega
      have hstep := ih (p ++ [c]) acc hlen
      simp only [List.length_append, List.length_singleton] at hstep
      rw [show p ++ c :: rest = (p ++ [c]) ++ rest by simp]
      exact hstep

end PackLemmas

/-- Claim C9: for width at least 1, `compression_ratio(rule, width, gens)`
serialises generations 0 through `gens` row-major with MSB-first packing
into bytes (final partial byte zero-padded, i.e. the byte stream is
`packBitsMSB` of the flattened rows), and returns
`raw_bits = width * (gens + 1)`, `compressed_bits = 8 ·` (byte length of
the opaque lossless codec's output on that stream) and
`ratio = compressed_bits / raw_bits`. -/
theorem compression_ratio_spec (codec : List Nat → List Nat)
    (rule width gens : Nat) (hw : 1 ≤ width) :
    ∃ s0, automatonNew width = some s0 ∧
      compression_ratio codec rule width gens =
        some (width * (gens + 1),
          8 * (codec (packBitsMSB (spacetimeBits rule s0 gens))).length,
          ((8 * (codec (packBitsMSB (spacetimeBits rule s0 gens))).length :
              Nat) : ℚ) / ((width * (gens + 1) : Nat) : ℚ)) := by
  have hj : width / 2 < width := Nat.div_lt_self (by omega) (by omega)
  refine ⟨(List.replicate width false).set (width / 2) true, by
    simp [automatonNew, hj], ?_⟩
  rw [compression_ratio]
  rw [show automatonNew width =
    some ((List.replicate width false).set (width / 2) true) by
      simp [automatonNew, hj]]
  simp only [Option.map_some']
  have hpack := packCells_spec
    (spacetimeBits rule ((List.replicate width false).set (width / 2) true)
      gens) [] [] (by simp)
  simp only [byteOfBits_nil, List.length_nil, List.nil_append] at hpack
  rw [hpack]

/-- Witness for C9 with the identity codec at rule 0, width 1,
0 generations. -/
theorem compression_ratio_spec_witness :
    ∃ s0, automatonNew 1 = some s0 ∧
      compression_ratio (fun b => b) 0 1 0 =
        some (1 * (0 + 1),
          8 * ((fun b : List Nat => b)
            (packBitsMSB (spacetimeBits 0 s0 0))).length,
          ((8 * ((fun b : List Nat => b)
              (packBitsMSB (spacetimeBits 0 s0 0))).length : Nat) : ℚ) /
            ((1 * (0 + 1) : Nat) : ℚ)) :=
  compression_ratio_spec (fun b => b) 0 1 0 (by decide)

/-- The MSB-first pattern value of the `k`-cell wraparound window starting
at cell `i`: `pattern |= 1 << (k - 1 - j)` for each live
`cells[(i + j) % n]`. -/
def patternAt (s : List Bool) (k i : Nat) : Nat :=
  (List.range k).foldl
    (fun pattern j =>
      if s.getD ((i + j) % s.length) false then
        pattern ||| (1 <<< (k - 1 - j))
      else pattern) 0

/-- `counts[p]` after the tally loop: the number of window start positions
`i < n` whose pattern is `p` (`counts[pattern] += 1` once per `i`). -/
def countPat (s : List Bool) (k p : Nat) : Nat :=
  ((Finset.range s.length).filter (fun i => patternAt s k i = p)).card

/-- `block_entropy(state, k)` over `ℝ`: 0 when `k = 0` or `k > width`,
otherwise `H = -Σ p · log2 p` over the patterns with positive count, with
`p = count / n`. -/
noncomputable def block_entropy (s : List Bool) (k : Nat) : ℝ :=
  if k = 0 ∨ s.length < k then 0
  else
    -∑ p ∈ Finset.range (2 ^ k),
      (if 0 < countPat s k p then
        ((countPat s k p : ℝ) / (s.length : ℝ)) *
          Real.logb 2 ((countPat s k p : ℝ) / (s.length : ℝ))
      else 0)

section EntropyLemmas

theorem foldl_pattern_lt (s : List Bool) (k i : Nat) (hk : 1 ≤ k) :
    ∀ (l : List Nat) (acc : Nat), acc < 2 ^ k →
      l.foldl (fun pattern j =>
        if s.getD ((i + j) % s.length) false then
          pattern ||| (1 <<< (k - 1 - j))
        else pattern) acc < 2 ^ k := by
  intro l
  induction l with
  | nil => intro acc h; exact h
  | cons x l ih =>
    intro acc h
    rw [List.foldl_cons]
    apply ih
    by_cases hc : s.getD ((i + x) % s.length) false = true
    · rw [if_pos hc]
      have h1 : (1 <<< (k - 1 - x)) < 2 ^ k := by
        rw [Nat.shiftLeft_eq, one_mul]
        exact Nat.pow_lt_pow_right (by omega) (by omega)
      exact Nat.or_lt_two_pow h h1
    · rw [if_neg hc]
      exact h

theorem patternAt_lt (s : List Bool) (k i : Nat) (hk : 1 ≤ k) :
    patternAt s k i < 2 ^ k :=
  foldl_pattern_lt s k i hk _ 0 (Nat.two_pow_pos k)

theorem sum_countPat (s : List Bool) (k : Nat) (hk : 1 ≤ k) :
    ∑ p ∈ Finset.range (2 ^ k), countPat s k p = s.length := by
  have h := Finset.card_eq_sum_card_fiberwise
    (f := fun i => patternAt s k i) (s := Finset.range s.length)
    (t := Finset.range (2 ^ k))
    (fun i _ => Finset.mem_range.mpr (patternAt_lt s k i hk))
  rw [Finset.card_range] at h
  exact h.symm

theorem countPat_le (s : List Bool) (k p : Nat) :
    countPat s k p ≤ s.length :=
  le_trans (Finset.card_filter_le _ _) (le_of_eq (Finset.card_range _))

theorem entropy_guard_false {s : List Bool} {k : Nat} (hk1 : 1 ≤ k)
    (hkn : k ≤ s.length) : ¬ (k = 0 ∨ s.length < k) := by
  omega

theorem block_entropy_nonneg (s : List Bool) (k : Nat) (hk1 : 1 ≤ k)
    (hkn : k ≤ s.length) : 0 ≤ block_entropy s k := by
  rw [block_entropy, if_neg (entropy_guard_false hk1 hkn), neg_nonneg]
  apply Finset.sum_nonpos
  intro p _
  by_cases hc : 0 < countPat s k p
  · rw [if_pos hc]
    have hn : (0 : ℝ) < (s.length : ℝ) := by
      have : 0 < s.length := by omega
      exact_mod_cast this
    apply mul_nonpos_iff.mpr
    apply Or.inl
    constructor
    · positivity
    · apply Real.logb_nonpos (by norm_num)
      · positivity
      · rw [div_le_one hn]
        exact_mod_cast countPat_le s k p
  · rw [if_neg hc]

theorem block_entropy_zero_of_const (s : List Bool) (k : Nat) (hk1 : 1 ≤ k)
    (hkn : k ≤ s.length)
    (hconst : ∀ i, i < s.length → patternAt s k i = patternAt s k 0) :
    block_entropy s k = 0 := by
  rw [block_entropy, if_neg (entropy_guard_false hk1 hkn), neg_eq_zero]
  apply Finset.sum_eq_zero
  intro p _
  by_cases hc : 0 < countPat s k p
  · rw [if_pos hc]
    have hfull : countPat s k p = s.length := by
      obtain ⟨i, hi⟩ := Finset.card_pos.mp hc
      rw [Finset.mem_filter, Finset.mem_range] at hi
      have hall : ∀ j ∈ Finset.range s.length, patternAt s k j = p := by
        intro j hj
        rw [Finset.mem_range] at hj
        rw [hconst j hj, ← hconst i hi.1, hi.2]
      rw [countPat, Finset.filter_true_of_mem hall, Finset.card_range]
    have hn : ((s.length : ℝ)) ≠ 0 := by
      have : 0 < s.length := by omega
      positivity
    rw [hfull, div_self hn, Real.logb_one, mul_zero]
  · rw [if_neg hc]

/-- The patterns with positive count (the support of the window
distribution). -/
def supportPat (s : List Bool) (k : Nat) : Finset Nat :=
  (Finset.range (2 ^ k)).filter (fun p => 0 < countPat s k p)

theorem block_entropy_eq (s : List Bool) (k : Nat) (hk1 : 1 ≤ k)
    (hkn : k ≤ s.length) :
    block_entropy s k =
      -∑ p ∈ Finset.range (2 ^ k),
        (if 0 < countPat s k p then
          ((countPat s k p : ℝ) / (s.length : ℝ)) *
            Real.logb 2 ((countPat s k p : ℝ) / (s.length : ℝ))
        else 0) := by
  rw [block_entropy, if_neg (entropy_guard_false hk1 hkn)]

theorem sum_ratio (s : List Bool) (k : Nat) (hk1 : 1 ≤ k)
    (hkn : k ≤ s.length) :
    ∑ p ∈ Finset.range (2 ^ k),
      ((countPat s k p : ℝ) / (s.length : ℝ)) = 1 := by
  rw [← Finset.sum_div]
  have hcast : ∑ p ∈ Finset.range (2 ^ k), ((countPat s k p : ℝ)) =
      ((s.length : ℝ)) := by
    rw [← Nat.cast_sum]
    exact_mod_cast congrArg (Nat.cast : Nat → ℝ) (sum_countPat s k hk1)
  rw [hcast]
  have hn : 0 < s.length := by omega
  exact div_self (by positivity)

/-- The summed Gibbs defect `Σ pᵣ log (2^k pᵣ) − (pᵣ − 2⁻ᵏ)` over the
support, written against `block_entropy` and the support size. -/
theorem entropy_defect_sum (s : List Bool) (k : Nat) (hk1 : 1 ≤ k)
    (hkn : k ≤ s.length) :
    ∑ p ∈ Finset.range (2 ^ k),
      (if 0 < countPat s k p then
        ((countPat s k p : ℝ) / (s.length : ℝ)) *
          Real.log ((2 : ℝ) ^ k * ((countPat s k p : ℝ) / (s.length : ℝ))) -
          (((countPat s k p : ℝ) / (s.length : ℝ)) - ((2 : ℝ) ^ k)⁻¹)
      else 0) =
      ((k : ℝ) - block_entropy s k) * Real.log 2 - 1 +
        ((supportPat s k).card : ℝ) * ((2 : ℝ) ^ k)⁻¹ := by
  have hn : 0 < s.length := by omega
  have hnR : (0 : ℝ) < (s.length : ℝ) := by exact_mod_cast hn
  have hlog2 : (0 : ℝ) < Real.log 2 := Real.log_pos (by norm_num)
  -- split each summand into the logarithmic part and the linear part
  have hsplit : ∀ p ∈ Finset.range (2 ^ k),
      (if 0 < countPat s k p then
        ((countPat s k p : ℝ) / (s.length : ℝ)) *
          Real.log ((2 : ℝ) ^ k * ((countPat s k p : ℝ) / (s.length : ℝ))) -
          (((countPat s k p : ℝ) / (s.length : ℝ)) - ((2 : ℝ) ^ k)⁻¹)
      else 0) =
        (if 0 < countPat s k p then
          ((countPat s k p : ℝ) / (s.length : ℝ)) *
            Real.log ((2 : ℝ) ^ k * ((countPat s k p : ℝ) / (s.length : ℝ)))
        else 0) -
        (if 0 < countPat s k p then
          (((countPat s k p : ℝ) / (s.length : ℝ)) - ((2 : ℝ) ^ k)⁻¹)
        else 0) := by
    intro p _
    by_cases hc : 0 < countPat s k p <;> simp [hc]
  rw [Finset.sum_congr rfl hsplit, Finset.sum_sub_distrib]
  -- the logarithmic part
  have hA : ∑ p ∈ Finset.range (2 ^ k),
      (if 0 < countPat s k p then
        ((countPat s k p : ℝ) / (s.length : ℝ)) *
          Real.log ((2 : ℝ) ^ k * ((countPat s k p : ℝ) / (s.length : ℝ)))
      else 0) = ((k : ℝ) - block_entropy s k) * Real.log 2 := by
    have hA1 : ∀ p ∈ Finset.range (2 ^ k),
        (if 0 < countPat s k p then
          ((countPat s k p : ℝ) / (s.length : ℝ)) *
            Real.log ((2 : ℝ) ^ k * ((countPat s k p : ℝ) / (s.length : ℝ)))
        else 0) =
          (if 0 < countPat s k p then
            ((countPat s k p : ℝ) / (s.length : ℝ)) * ((k : ℝ) * Real.log 2)
          else 0) +
          (if 0 < countPat s k p then
            ((countPat s k p : ℝ) / (s.length : ℝ)) *
              Real.log ((countPat s k p : ℝ) / (s.length : ℝ))
          else 0) := by
      intro p _
      by_cases hc : 0 < countPat s k p
      · simp only [if_pos hc]
        have hcR : (0 : ℝ) < (countPat s k p : ℝ) := by exact_mod_cast hc
        rw [Real.log_mul (by positivity) (by positivity), Real.log_pow]
        ring
      · simp [hc]
    rw [Finset.sum_congr rfl hA1, Finset.sum_add_distrib]
    have h1 : ∑ p ∈ Finset.range (2 ^ k),
        (if 0 < countPat s k p then
          ((countPat s k p : ℝ) / (s.length : ℝ)) * ((k : ℝ) * Real.log 2)
        else 0) = (k : ℝ) * Real.log 2 := by
      have he : ∀ p ∈ Finset.range (2 ^ k),
          (if 0 < countPat s k p then
            ((countPat s k p : ℝ) / (s.length : ℝ)) * ((k : ℝ) * Real.log 2)
          else 0) =
            ((countPat s k p : ℝ) / (s.length : ℝ)) *
              ((k : ℝ) * Real.log 2) := by
        intro p _
        by_cases hc : 0 < countPat s k p
        · rw [if_pos hc]
        · have hc0 : countPat s k p = 0 := by omega
          simp [hc, hc0]
      rw [Finset.sum_congr rfl he, ← Finset.sum_mul,
        sum_ratio s k hk1 hkn, one_mul]
    have h2 : ∑ p ∈ Finset.range (2 ^ k),
        (if 0 < countPat s k p then
          ((countPat s k p : ℝ) / (s.length : ℝ)) *
            Real.log ((countPat s k p : ℝ) / (s.length : ℝ))
        else 0) = -(block_entropy s k) * Real.log 2 := by
      rw [block_entropy_eq s k hk1 hkn, neg_neg, Finset.sum_mul]
      apply Finset.sum_congr rfl
      intro p _
      by_cases hc : 0 < countPat s k p
      · simp only [if_pos hc]
        rw [Real.logb]
        field_simp
        ring
      · simp [hc]
    rw [h1, h2]
    ring
  -- the linear part
  have hB : ∑ p ∈ Finset.range (2 ^ k),
      (if 0 < countPat s k p then
        (((countPat s k p : ℝ) / (s.length : ℝ)) - ((2 : ℝ) ^ k)⁻¹)
      else 0) = 1 - ((supportPat s k).card : ℝ) * ((2 : ℝ) ^ k)⁻¹ := by
    have hB1 : ∀ p ∈ Finset.range (2 ^ k),
        (if 0 < countPat s k p then
          (((countPat s k p : ℝ) / (s.length : ℝ)) - ((2 : ℝ) ^ k)⁻¹)
        else 0) =
          ((countPat s k p : ℝ) / (s.length : ℝ)) -
            (if 0 < countPat s k p then ((2 : ℝ) ^ k)⁻¹ else 0) := by
      intro p _
      by_cases hc : 0 < countPat s k p
      · simp [hc]
      · have hc0 : countPat s k p = 0 := by omega
        simp [hc, hc0]
    rw [Finset.sum_congr rfl hB1, Finset.sum_sub_distrib,
      sum_ratio s k hk1 hkn]
    have h3 : ∑ p ∈ Finset.range (2 ^ k),
        (if 0 < countPat s k p then ((2 : ℝ) ^ k)⁻¹ else 0) =
        ((supportPat s k).card : ℝ) * ((2 : ℝ) ^ k)⁻¹ := by
      rw [supportPat, ← Finset.sum_filter, Finset.sum_const, nsmul_eq_mul]
    rw [h3]
  rw [hA, hB]
  ring

theorem entropy_defect_nonneg (s : List Bool) (k : Nat) (hk1 : 1 ≤ k)
    (hkn : k ≤ s.length) :
    ∀ p ∈ Finset.range (2 ^ k),
      0 ≤ (if 0 < countPat s k p then
        ((countPat s k p : ℝ) / (s.length : ℝ)) *
          Real.log ((2 : ℝ) ^ k * ((countPat s k p : ℝ) / (s.length : ℝ))) -
          (((countPat s k p : ℝ) / (s.length : ℝ)) - ((2 : ℝ) ^ k)⁻¹)
      else 0) := by
  intro p _
  by_cases hc : 0 < countPat s k p
  · rw [if_pos hc]
    have hn : 0 < s.length := by omega
    have hnR : (0 : ℝ) < (s.length : ℝ) := by exact_mod_cast hn
    have hcR : (0 : ℝ) < (countPat s k p : ℝ) := by exact_mod_cast hc
    have hratio : (0 : ℝ) < (countPat s k p : ℝ) / (s.length : ℝ) := by
      positivity
    have hlog : 1 - ((2 : ℝ) ^ k *
        ((countPat s k p : ℝ) / (s.length : ℝ)))⁻¹ ≤
        Real.log ((2 : ℝ) ^ k * ((countPat s k p : ℝ) / (s.length : ℝ))) := by
      have h1 := Real.log_le_sub_one_of_pos
        (show (0 : ℝ) < ((2 : ℝ) ^ k *
          ((countPat s k p : ℝ) / (s.length : ℝ)))⁻¹ by positivity)
      rw [Real.log_inv] at h1
      linarith
    have hmul := mul_le_mul_of_nonneg_left hlog (le_of_lt hratio)
    have hsimp : ((countPat s k p : ℝ) / (s.length : ℝ)) *
        (1 - ((2 : ℝ) ^ k * ((countPat s k p : ℝ) / (s.length : ℝ)))⁻¹) =
        ((countPat s k p : ℝ) / (s.length : ℝ)) - ((2 : ℝ) ^ k)⁻¹ := by
      field_simp
      ring
    linarith
  · rw [if_neg hc]

theorem block_entropy_le (s : List Bool) (k : Nat) (hk1 : 1 ≤ k)
    (hkn : k ≤ s.length) : block_entropy s k ≤ (k : ℝ) := by
  have hsum := Finset.sum_nonneg (entropy_defect_nonneg s k hk1 hkn)
  rw [entropy_defect_sum s k hk1 hkn] at hsum
  have hlog2 : (0 : ℝ) < Real.log 2 := Real.log_pos (by norm_num)
  have hcard : (supportPat s k).card ≤ 2 ^ k :=
    le_trans (Finset.card_filter_le _ _) (le_of_eq (Finset.card_range _))
  have hS : ((supportPat s k).card : ℝ) * ((2 : ℝ) ^ k)⁻¹ ≤ 1 := by
    rw [← div_eq_mul_inv, div_le_one (by positivity)]
    have h2 : ((supportPat s k).card : ℝ) ≤ ((2 ^ k : ℕ) : ℝ) := by
      exact_mod_cast hcard
    simpa using h2
  by_contra hgt
  push_neg at hgt
  have hneg : ((k : ℝ) - block_entropy s k) * Real.log 2 < 0 :=
    mul_neg_of_neg_of_pos (by linarith) hlog2
  linarith

theorem block_entropy_eq_k_iff (s : List Bool) (k : Nat) (hk1 : 1 ≤ k)
    (hkn : k ≤ s.length) :
    block_entropy s k = (k : ℝ) ↔
      ∀ p ∈ Finset.range (2 ^ k), ∀ q ∈ Finset.range (2 ^ k),
        countPat s k p = countPat s k q := by
  have hn : 0 < s.length := by omega
  have hnR : (0 : ℝ) < (s.length : ℝ) := by exact_mod_cast hn
  have hlog2 : (0 : ℝ) < Real.log 2 := Real.log_pos (by norm_num)
  constructor
  · intro hH
    have hid := entropy_defect_sum s k hk1 hkn
    rw [hH] at hid
    simp only [sub_self, zero_mul] at hid
    have hnonneg := entropy_defect_nonneg s k hk1 hkn
    have hcard : (supportPat s k).card ≤ 2 ^ k :=
      le_trans (Finset.card_filter_le _ _) (le_of_eq (Finset.card_range _))
    have hS : ((supportPat s k).card : ℝ) * ((2 : ℝ) ^ k)⁻¹ ≤ 1 := by
      rw [← div_eq_mul_inv, div_le_one (by positivity)]
      have h2 : ((supportPat s k).card : ℝ) ≤ ((2 ^ k : ℕ) : ℝ) := by
        exact_mod_cast hcard
      simpa using h2
    have hsum0 : ∑ p ∈ Finset.range (2 ^ k),
        (if 0 < countPat s k p then
          ((countPat s k p : ℝ) / (s.length : ℝ)) *
            Real.log ((2 : ℝ) ^ k *
              ((countPat s k p : ℝ) / (s.length : ℝ))) -
            (((countPat s k p : ℝ) / (s.length : ℝ)) - ((2 : ℝ) ^ k)⁻¹)
        else 0) = 0 := by
      have hge := Finset.sum_nonneg hnonneg
      linarith [hid, hS, hge]
    have hScard : ((supportPat s k).card : ℝ) * ((2 : ℝ) ^ k)⁻¹ = 1 := by
      rw [hsum0] at hid
      linarith
    have hfull : supportPat s k = Finset.range (2 ^ k) := by
      have hsub : supportPat s k ⊆ Finset.range (2 ^ k) := by
        rw [supportPat]
        exact Finset.filter_subset _ _
      apply Finset.eq_of_subset_of_card_le hsub
      rw [Finset.card_range]
      have hSN : ((supportPat s k).card : ℝ) = ((2 ^ k : ℕ) : ℝ) := by
        have hNne : ((2 : ℝ) ^ k) ≠ 0 := by positivity
        have := hScard
        field_simp at this
        simpa using this
      have : (supportPat s k).card = 2 ^ k := by exact_mod_cast hSN
      omega
    have hall_pos : ∀ p ∈ Finset.range (2 ^ k), 0 < countPat s k p := by
      intro p hp
      have hmem : p ∈ supportPat s k := by rw [hfull]; exact hp
      exact (Finset.mem_filter.mp hmem).2
    have hzero := (Finset.sum_eq_zero_iff_of_nonneg hnonneg).mp hsum0
    have hratio_eq : ∀ p ∈ Finset.range (2 ^ k),
        (countPat s k p : ℝ) / (s.length : ℝ) = ((2 : ℝ) ^ k)⁻¹ := by
      intro p hp
      have hd := hzero p hp
      rw [if_pos (hall_pos p hp)] at hd
      have hcR : (0 : ℝ) < (countPat s k p : ℝ) := by
        exact_mod_cast hall_pos p hp
      have hratio : (0 : ℝ) <
          (countPat s k p : ℝ) / (s.length : ℝ) := by positivity
      by_contra hne
      have hxne : (2 : ℝ) ^ k *
          ((countPat s k p : ℝ) / (s.length : ℝ)) ≠ 1 := by
        intro hx1
        exact hne (eq_inv_of_mul_eq_one_left
          (by rw [mul_comm] at hx1; exact hx1))
      have hstrict : 1 - ((2 : ℝ) ^ k *
          ((countPat s k p : ℝ) / (s.length : ℝ)))⁻¹ <
          Real.log ((2 : ℝ) ^ k *
            ((countPat s k p : ℝ) / (s.length : ℝ))) := by
        have hinvne : ((2 : ℝ) ^ k *
            ((countPat s k p : ℝ) / (s.length : ℝ)))⁻¹ ≠ 1 := by
          intro h1
          exact hxne (inv_eq_one.mp h1)
        have h1 := Real.log_lt_sub_one_of_pos
          (show (0 : ℝ) < ((2 : ℝ) ^ k *
            ((countPat s k p : ℝ) / (s.length : ℝ)))⁻¹ by positivity)
          hinvne
        rw [Real.log_inv] at h1
        linarith
      have hmul := mul_lt_mul_of_pos_left hstrict hratio
      have hsimp : ((countPat s k p : ℝ) / (s.length : ℝ)) *
          (1 - ((2 : ℝ) ^ k *
            ((countPat s k p : ℝ) / (s.length : ℝ)))⁻¹) =
          ((countPat s k p : ℝ) / (s.length : ℝ)) - ((2 : ℝ) ^ k)⁻¹ := by
        field_simp
        ring
      linarith
    intro p hp q hq
    have h1 := hratio_eq p hp
    have h2 := hratio_eq q hq
    have h3 := h1.trans h2.symm
    field_simp at h3
    exact h3
  · intro hconst
    have h0mem : (0 : ℕ) ∈ Finset.range (2 ^ k) :=
      Finset.mem_range.mpr (Nat.two_pow_pos k)
    have hconst0 : ∀ p ∈ Finset.range (2 ^ k),
        countPat s k p = countPat s k 0 :=
      fun p hp => hconst p hp 0 h0mem
    have hsum := sum_countPat s k hk1
    rw [Finset.sum_congr rfl hconst0, Finset.sum_const, Finset.card_range,
      smul_eq_mul] at hsum
    have hc0pos : 0 < countPat s k 0 := by
      rcases Nat.eq_zero_or_pos (countPat s k 0) with h0 | h0
      · rw [h0, Nat.mul_zero] at hsum
        omega
      · exact h0
    rw [block_entropy_eq s k hk1 hkn]
    have hterm : ∀ p ∈ Finset.range (2 ^ k),
        (if 0 < countPat s k p then
          ((countPat s k p : ℝ) / (s.length : ℝ)) *
            Real.logb 2 ((countPat s k p : ℝ) / (s.length : ℝ))
        else 0) = ((2 : ℝ) ^ k)⁻¹ * (-(k : ℝ)) := by
      intro p hp
      have hcp : countPat s k p = countPat s k 0 := hconst0 p hp
      rw [if_pos (by rw [hcp]; exact hc0pos), hcp]
      have hnval : (s.length : ℝ) =
          (2 : ℝ) ^ k * (countPat s k 0 : ℝ) := by
        exact_mod_cast hsum.symm
      have hc0R : (0 : ℝ) < (countPat s k 0 : ℝ) := by exact_mod_cast hc0pos
      rw [hnval]
      have hratio : (countPat s k 0 : ℝ) /
          ((2 : ℝ) ^ k * (countPat s k 0 : ℝ)) = ((2 : ℝ) ^ k)⁻¹ := by
        field_simp
        ring
      rw [hratio, Real.logb_inv, Real.logb_pow,
        Real.logb_self_eq_one (by norm_num : (1 : ℝ) < 2)]
      ring
    rw [Finset.sum_congr rfl hterm, Finset.sum_const, Finset.card_range,
      nsmul_eq_mul]
    have hNne : ((2 : ℝ) ^ k) ≠ 0 := by positivity
    push_cast
    field_simp

end EntropyLemmas

/-- Claim C7: `block_entropy` returns 0 for `k = 0` or `k > width`; for `k`
between 1 and the width the window tally draws exactly `width` samples (the
pattern counts over the `2^k` slots sum to the width), the entropy satisfies
`0 ≤ H ≤ k`, `H = 0` when every length-`k` window is identical, and `H = k`
iff all `2^k` patterns occur with equal frequency. -/
theorem block_entropy_spec (s : List Bool) (k : Nat) :
    ((k = 0 ∨ s.length < k) → block_entropy s k = 0) ∧
      (1 ≤ k → k ≤ s.length →
        (∑ p ∈ Finset.range (2 ^ k), countPat s k p = s.length) ∧
          0 ≤ block_entropy s k ∧ block_entropy s k ≤ (k : ℝ) ∧
          ((∀ i, i < s.length → patternAt s k i = patternAt s k 0) →
            block_entropy s k = 0) ∧
          (block_entropy s k = (k : ℝ) ↔
            ∀ p ∈ Finset.range (2 ^ k), ∀ q ∈ Finset.range (2 ^ k),
              countPat s k p = countPat s k q)) := by
  constructor
  · intro h
    rw [block_entropy, if_pos h]
  · intro hk1 hkn
    exact ⟨sum_countPat s k hk1, block_entropy_nonneg s k hk1 hkn,
      block_entropy_le s k hk1 hkn,
      block_entropy_zero_of_const s k hk1 hkn,
      block_entropy_eq_k_iff s k hk1 hkn⟩

/-- Witness for C7 on the width-2 state `[#,_]` with `k = 1`. -/
theorem block_entropy_spec_witness :
    (∑ p ∈ Finset.range (2 ^ 1), countPat [true, false] 1 p = 2) ∧
      0 ≤ block_entropy [true, false] 1 ∧
      block_entropy [true, false] 1 ≤ ((1 : Nat) : ℝ) := by
  have h := (block_entropy_spec [true, false] 1).2 (by decide) (by decide)
  exact ⟨h.1, h.2.1, h.2.2.1⟩

end Automata
